import Mathlib

/-!
Shallow embedding of the SpaRe program (SpaRe.py): a pipeline that
normalises a text, locates spatial-indicator positions from snippet
substrings, and bins those positions into N text segments.

Strings are modelled as `List Char`; character offsets as `Int` (Python
string search returns -1 when the substring is absent); Python dicts as
association lists in insertion order, updated in place.
-/

namespace SpaRe

/-- Characters kept by the first loop of clean_text:
letter.isalpha() or letter == ' ' or letter == '-'.
(The following elif branch of the source compares the single character
with a three-character string -- a mojibake typographic apostrophe -- and
is therefore never taken in Python 3; apostrophes are simply dropped.
isalpha is modelled by Char.isAlpha.) -/
def keepChar (c : Char) : Bool := c.isAlpha || c == ' ' || c == '-'

/-- file.read().replace of newline by space, applied to the file contents. -/
def replaceNewlines (s : List Char) : List Char :=
  s.map (fun c => if c = '\n' then ' ' else c)

/-- First loop of clean_text: build alnum_and_space by keeping only
letters, spaces and hyphens. -/
def filterKept (s : List Char) : List Char := s.filter keepChar

/-- Second loop of clean_text: for index in range(len(s)-1), append s[index]
unless s[index] and s[index+1] are both spaces.  The recursion inspects the
pair (s[index], s[index+1]) exactly as the loop does; the final character
(index len-1) is never appended because the range stops at len-2. -/
def collapseSpaces : List Char → List Char
  | [] => []
  | [_] => []
  | a :: b :: rest =>
      (if a == ' ' && b == ' ' then [] else [a]) ++ collapseSpaces (b :: rest)

/-- clean_text, with the contents of the file passed as raw input. -/
def clean_text (raw : List Char) : List Char :=
  collapseSpaces (filterKept (replaceNewlines raw))

/-- Whether the pattern occurs at the head of the text
(an empty pattern occurs everywhere, as in Python). -/
def matchesAt : List Char → List Char → Bool
  | [], _ => true
  | _ :: _, [] => false
  | p :: ps, t :: ts => p == t && matchesAt ps ts

/-- Helper for strFind: search for pat from position i onwards. -/
def findFrom (pat : List Char) : List Char → Nat → Int
  | t, i =>
    if matchesAt pat t then (i : Int)
    else
      match t with
      | [] => -1
      | _ :: rest => findFrom pat rest (i + 1)

/-- Python text.find(pat): index of the first occurrence of pat in text,
or -1 when pat does not occur. -/
def strFind (text pat : List Char) : Int := findFrom pat text 0

/-- Python dict assignment d.update with a single key: if the key is present
its value is replaced in place (insertion position kept), otherwise the
pair is appended at the end.  Models dicts whose keys are unique, which the
program maintains. -/
def dictUpdate {α β : Type} [DecidableEq α] : List (α × β) → α → β → List (α × β)
  | [], k, v => [(k, v)]
  | p :: d, k, v => if p.1 = k then (k, v) :: d else p :: dictUpdate d k v

/-- Association-list lookup, i.e. Python d[k] (as an Option). -/
def lookupD {α β : Type} [DecidableEq α] : List (α × β) → α → Option β
  | [], _ => none
  | p :: d, k => if p.1 = k then some p.2 else lookupD d k

/-- The first loop of find_SpaRe: for x in range(len(snippets)-1) -- i.e. over
every snippet except the last, in order (snippets.dropLast) -- record
text.find(snippets[x]) as key and len(snippets[x]) as value in the dict
location_and_length.  (The snippet_indices list built alongside is never
read again and is omitted.) -/
def location_and_length (text : List Char) (snippets : List (List Char)) :
    List (Int × Nat) :=
  snippets.dropLast.foldl (fun d s => dictUpdate d (strFind text s) s.length) []

/-- Second loop of find_SpaRe: for each recorded offset x, emit
x + location_and_length[x] + 1, in dict iteration (= insertion) order. -/
def find_SpaRe (text : List Char) (snippets : List (List Char)) : List Int :=
  (location_and_length text snippets).map (fun p => p.1 + (p.2 : Int) + 1)

/-- chunk_length = math.ceil(len(text)/nr_of_chunks), as exact ceiling
division (nr_of_chunks is positive in every use; Python would raise on 0). -/
def chunk_length (textLen nr : Nat) : Nat := (textLen + nr - 1) / nr

/-- The end index of a chunk: end = chunk_length*chunk when chunk == 1, and
chunk_length*chunk + x otherwise, where the running variable x equals
chunk - 1 at that iteration. -/
def chunkEnd (L chunk : Nat) : Nat :=
  if chunk = 1 then L * chunk else L * chunk + (chunk - 1)

/-- start = end - chunk_length (never negative, since end is at least L
for every chunk from 1 on). -/
def chunkStart (L chunk : Nat) : Nat := chunkEnd L chunk - L

/-- The inner loop of freq_SpIn for one chunk: count the locations with
start <= location <= end (both ends inclusive). -/
def countInChunk (locs : List Int) (s e : Nat) : Nat :=
  locs.countP (fun l => (s : Int) ≤ l && l ≤ (e : Int))

/-- freq_SpIn: for chunk in range(1, nr_of_chunks + 1), first
densities.update with value 0, then with the running count after each
matching location; the final value for the chunk is the total count in
that chunk (still 0 when nothing matched, as in the source). -/
def freq_SpIn (SpIn_location : List Int) (text : List Char)
    (nr_of_chunks : Nat) : List (Nat × Nat) :=
  let L := chunk_length text.length nr_of_chunks
  (List.range' 1 nr_of_chunks).foldl
    (fun d chunk =>
      dictUpdate (dictUpdate d chunk 0) chunk
        (countInChunk SpIn_location (chunkStart L chunk) (chunkEnd L chunk)))
    []

/-- The last element of a list satisfying P, if any.  In a Python dict keyed
by a value computed from the elements, the surviving value for a key comes
from the last element mapping to it. -/
def lastMatch {α : Type} (P : α → Bool) : List α → Option α
  | [] => none
  | a :: as =>
    match lastMatch P as with
    | some b => some b
    | none => if P a then some a else none

/-- True when the list nowhere holds two consecutive space characters. -/
def noDoubleSpace : List Char → Bool
  | [] => true
  | [_] => true
  | a :: b :: rest => !(a == ' ' && b == ' ') && noDoubleSpace (b :: rest)

/-- The text of the specification scenario. -/
def catText : List Char := String.toList "the cat sat on the mat"

/-- The snippet of the specification scenario (with its trailing space). -/
def catSnippet : List Char := String.toList "the cat sat "

/-! ## Association-list (dict) lemmas -/

theorem mem_dictUpdate {α β : Type} [DecidableEq α] (d : List (α × β)) (k : α)
    (v : β) (p : α × β) (hp : p ∈ dictUpdate d k v) : p = (k, v) ∨ p ∈ d := by
  induction d with
  | nil => simpa [dictUpdate] using hp
  | cons q d ih =>
    by_cases h : q.1 = k
    · simp only [dictUpdate, if_pos h, List.mem_cons] at hp
      rcases hp with h1 | h1
      · exact Or.inl h1
      · exact Or.inr (List.mem_cons_of_mem _ h1)
    · simp only [dictUpdate, if_neg h, List.mem_cons] at hp
      rcases hp with h1 | h1
      · exact Or.inr (by simp [h1])
      · rcases ih h1 with h2 | h2
        · exact Or.inl h2
        · exact Or.inr (List.mem_cons_of_mem _ h2)

theorem lookupD_dictUpdate {α β : Type} [DecidableEq α] (d : List (α × β))
    (k k' : α) (v : β) :
    lookupD (dictUpdate d k' v) k = if k' = k then some v else lookupD d k := by
  induction d with
  | nil =>
    by_cases h : k' = k <;> simp [dictUpdate, lookupD, h]
  | cons q d ih =>
    simp only [dictUpdate]
    by_cases hq : q.1 = k'
    · rw [if_pos hq]
      by_cases h : k' = k
      · simp [lookupD, h]
      · have hqk : ¬ q.1 = k := fun hc => h (hq.symm.trans hc)
        simp [lookupD, h, hqk]
    · rw [if_neg hq]
      simp only [lookupD]
      by_cases h : q.1 = k
      · have hne : ¬ k' = k := fun hc => hq (h.trans hc.symm)
        rw [if_pos h, if_neg hne, if_pos h]
      · rw [if_neg h, ih]
        by_cases hk : k' = k <;> simp [hk, lookupD, h]

theorem lookupD_mem {α β : Type} [DecidableEq α] (d : List (α × β)) (k : α)
    (v : β) (h : lookupD d k = some v) : (k, v) ∈ d := by
  induction d with
  | nil => simp [lookupD] at h
  | cons q d ih =>
    by_cases hq : q.1 = k
    · simp only [lookupD, if_pos hq, Option.some.injEq] at h
      have hqe : q = (k, v) := by
        calc q = (q.1, q.2) := rfl
          _ = (k, v) := by rw [hq, h]
      rw [← hqe]
      exact List.mem_cons_self q d
    · simp only [lookupD, if_neg hq] at h
      exact List.mem_cons_of_mem _ (ih h)

theorem dictUpdate_eq_append {α β : Type} [DecidableEq α] (d : List (α × β))
    (k : α) (v : β) (h : ∀ p ∈ d, p.1 ≠ k) : dictUpdate d k v = d ++ [(k, v)] := by
  induction d with
  | nil => rfl
  | cons q d ih =>
    have hq : q.1 ≠ k := h q (by simp)
    simp only [dictUpdate, if_neg hq, List.cons_append, List.cons.injEq, true_and]
    exact ih (fun p hp => h p (by simp [hp]))

theorem dictUpdate_append_key {α β : Type} [DecidableEq α] (d : List (α × β))
    (k : α) (v w : β) (h : ∀ p ∈ d, p.1 ≠ k) :
    dictUpdate (d ++ [(k, w)]) k v = d ++ [(k, v)] := by
  induction d with
  | nil => simp [dictUpdate]
  | cons q d ih =>
    have hq : q.1 ≠ k := h q (by simp)
    simp only [List.cons_append, dictUpdate, if_neg hq, List.cons.injEq, true_and]
    exact ih (fun p hp => h p (by simp [hp]))

theorem keys_dictUpdate_of_mem {α β : Type} [DecidableEq α] (d : List (α × β))
    (k : α) (v : β) (h : k ∈ d.map Prod.fst) :
    (dictUpdate d k v).map Prod.fst = d.map Prod.fst := by
  induction d with
  | nil => simp at h
  | cons q d ih =>
    by_cases hq : q.1 = k
    · simp [dictUpdate, hq]
    · have h' : k ∈ d.map Prod.fst := by
        rcases List.mem_map.mp h with ⟨p, hp, hpk⟩
        rcases List.mem_cons.mp hp with h1 | h1
        · exact absurd (h1 ▸ hpk) hq
        · exact hpk ▸ List.mem_map_of_mem _ h1
      simp [dictUpdate, hq, ih h']

theorem keys_dictUpdate_of_not_mem {α β : Type} [DecidableEq α]
    (d : List (α × β)) (k : α) (v : β) (h : k ∉ d.map Prod.fst) :
    (dictUpdate d k v).map Prod.fst = d.map Prod.fst ++ [k] := by
  have h' : ∀ p ∈ d, p.1 ≠ k := by
    intro p hp hc
    exact h (hc ▸ List.mem_map_of_mem _ hp)
  rw [dictUpdate_eq_append d k v h']
  simp

theorem nodup_keys_dictUpdate {α β : Type} [DecidableEq α] (d : List (α × β))
    (k : α) (v : β) (h : (d.map Prod.fst).Nodup) :
    ((dictUpdate d k v).map Prod.fst).Nodup := by
  by_cases hk : k ∈ d.map Prod.fst
  · rw [keys_dictUpdate_of_mem d k v hk]; exact h
  · rw [keys_dictUpdate_of_not_mem d k v hk]
    simp [List.nodup_append, h, hk]

theorem filter_key_of_lookupD {α β : Type} [DecidableEq α] (d : List (α × β))
    (k : α) (v : β) (hnd : (d.map Prod.fst).Nodup)
    (h : lookupD d k = some v) : d.filter (fun p => p.1 == k) = [(k, v)] := by
  induction d with
  | nil => simp [lookupD] at h
  | cons q d ih =>
    have hnd1 : q.1 ∉ d.map Prod.fst ∧ (d.map Prod.fst).Nodup := by
      rw [List.map_cons] at hnd
      exact List.nodup_cons.mp hnd
    by_cases hq : q.1 = k
    · simp only [lookupD, if_pos hq, Option.some.injEq] at h
      have hknotin : k ∉ d.map Prod.fst := hq ▸ hnd1.1
      have hfil : d.filter (fun p => p.1 == k) = [] := by
        rw [List.filter_eq_nil_iff]
        intro p hp
        simp only [beq_iff_eq]
        intro hpk
        exact hknotin (hpk ▸ List.mem_map_of_mem _ hp)
      have hqe : q = (k, v) := by
        calc q = (q.1, q.2) := rfl
          _ = (k, v) := by rw [hq, h]
      simp [List.filter_cons, hq, hfil, hqe]
    · simp only [lookupD, if_neg hq] at h
      simp [List.filter_cons, hq, ih hnd1.2 h]

/-! ## lastMatch lemmas -/

theorem lastMatch_spec {α : Type} (P : α → Bool) (l : List α) (s : α)
    (h : lastMatch P l = some s) : s ∈ l ∧ P s = true := by
  induction l with
  | nil => simp [lastMatch] at h
  | cons a l ih =>
    simp only [lastMatch] at h
    cases hl : lastMatch P l with
    | some b =>
      rw [hl] at h
      rcases ih (hl.trans (by simpa using h)) with ⟨h1, h2⟩
      exact ⟨List.mem_cons_of_mem _ h1, h2⟩
    | none =>
      rw [hl] at h
      by_cases hp : P a
      · simp only [if_pos hp, Option.some.injEq] at h
        exact ⟨by simp [h], h ▸ hp⟩
      · simp [hp] at h

theorem lastMatch_of_mem {α : Type} (P : α → Bool) (l : List α) (a : α)
    (ha : a ∈ l) (hpa : P a = true) : ∃ s, lastMatch P l = some s := by
  induction l with
  | nil => cases ha
  | cons b l ih =>
    simp only [lastMatch]
    cases hl : lastMatch P l with
    | some t => exact ⟨t, rfl⟩
    | none =>
      rcases List.mem_cons.mp ha with h | h
      · subst h; exact ⟨a, by simp [hpa]⟩
      · rcases ih h with ⟨s, hs⟩
        rw [hs] at hl; cases hl

/-! ## find_SpaRe lemmas -/

theorem lookupD_location_fold (text : List Char) (ss : List (List Char))
    (d : List (Int × Nat)) (k : Int) :
    lookupD (ss.foldl (fun d s => dictUpdate d (strFind text s) s.length) d) k =
      match lastMatch (fun s => strFind text s == k) ss with
      | some s => some s.length
      | none => lookupD d k := by
  induction ss generalizing d with
  | nil => simp [lastMatch]
  | cons s ss ih =>
    simp only [List.foldl_cons, lastMatch]
    rw [ih]
    cases h : lastMatch (fun s => strFind text s == k) ss with
    | some t => simp
    | none =>
      simp only
      rw [lookupD_dictUpdate]
      by_cases hk : strFind text s = k
      · simp [hk]
      · simp [hk, beq_iff_eq]

theorem nodup_keys_location_fold (text : List Char) (ss : List (List Char))
    (d : List (Int × Nat)) (hd : (d.map Prod.fst).Nodup) :
    (((ss.foldl (fun d s => dictUpdate d (strFind text s) s.length) d)).map
      Prod.fst).Nodup := by
  induction ss generalizing d with
  | nil => simpa using hd
  | cons s ss ih =>
    simp only [List.foldl_cons]
    exact ih _ (nodup_keys_dictUpdate _ _ _ hd)

theorem mem_location_fold (text : List Char) (ss : List (List Char))
    (d : List (Int × Nat)) (p : Int × Nat)
    (hp : p ∈ ss.foldl (fun d s => dictUpdate d (strFind text s) s.length) d) :
    p ∈ d ∨ ∃ s ∈ ss, p = (strFind text s, s.length) := by
  induction ss generalizing d with
  | nil => exact Or.inl (by simpa using hp)
  | cons s ss ih =>
    simp only [List.foldl_cons] at hp
    rcases ih _ hp with h | h
    · rcases mem_dictUpdate _ _ _ _ h with h1 | h1
      · exact Or.inr ⟨s, by simp, h1⟩
      · exact Or.inl h1
    · rcases h with ⟨t, ht, hpt⟩
      exact Or.inr ⟨t, by simp [ht], hpt⟩

theorem findFrom_ge_neg_one (pat : List Char) :
    ∀ (t : List Char) (i : Nat), -1 ≤ findFrom pat t i := by
  intro t
  induction t with
  | nil =>
    intro i
    rw [findFrom]
    split
    · exact le_trans (by norm_num) (Int.ofNat_nonneg i)
    · exact le_refl _
  | cons a rest ih =>
    intro i
    rw [findFrom]
    split
    · exact le_trans (by norm_num) (Int.ofNat_nonneg i)
    · exact ih (i + 1)

theorem strFind_ge_neg_one (text pat : List Char) : -1 ≤ strFind text pat :=
  findFrom_ge_neg_one pat text 0

theorem find_SpaRe_nonneg (text : List Char) (snippets : List (List Char))
    (loc : Int) (h : loc ∈ find_SpaRe text snippets) : 0 ≤ loc := by
  rcases List.mem_map.mp h with ⟨p, hp, rfl⟩
  rcases mem_location_fold text _ [] p hp with h1 | h1
  · cases h1
  · rcases h1 with ⟨s, _, rfl⟩
    have := strFind_ge_neg_one text s
    have h2 : (0 : Int) ≤ (s.length : Int) := Int.ofNat_nonneg _
    omega

/-! ## Claim theorems about find_SpaRe -/

/-- C5: every indicator location returned by find_SpaRe equals the offset
of the first occurrence of some processed snippet (one of the first n-1,
i.e. a member of snippets.dropLast; strFind returns that first-occurrence
offset, -1 when the snippet is absent) plus that snippet's length plus 1. -/
theorem find_SpaRe_offset_form (text : List Char) (snippets : List (List Char))
    (loc : Int) (h : loc ∈ find_SpaRe text snippets) :
    ∃ s ∈ snippets.dropLast, loc = strFind text s + (s.length : Int) + 1 := by
  rcases List.mem_map.mp h with ⟨p, hp, rfl⟩
  rcases mem_location_fold text _ [] p hp with h1 | h1
  · cases h1
  · rcases h1 with ⟨s, hs, rfl⟩
    exact ⟨s, hs, rfl⟩

theorem find_SpaRe_offset_form_witness :
    (2 : Int) ∈ find_SpaRe (String.toList "ab") [String.toList "a", String.toList "z"] ∧
    ∃ s ∈ [String.toList "a", String.toList "z"].dropLast,
      (2 : Int) = strFind (String.toList "ab") s + (s.length : Int) + 1 :=
  ⟨by decide, find_SpaRe_offset_form (String.toList "ab")
    [String.toList "a", String.toList "z"] 2 (by decide)⟩

/-- C6: find_SpaRe searches only the first n-1 snippets: a one-element
snippet list yields the empty location list, and replacing the last
snippet by any other string leaves the result unchanged (the last snippet
never contributes an indicator location). -/
theorem find_SpaRe_skips_last (text s t : List Char) (ss : List (List Char)) :
    find_SpaRe text [s] = [] ∧
    find_SpaRe text (ss ++ [s]) = find_SpaRe text (ss ++ [t]) := by
  constructor
  · rfl
  · unfold find_SpaRe location_and_length
    rw [List.dropLast_concat, List.dropLast_concat]

/-- C7: when a processed snippet does not occur in the text, no error is
raised; the -1 sentinel is recorded unfiltered, and the returned list
contains the spurious location -1 + length + 1, i.e. the snippet's length
(the length of the last absent processed snippet, the one whose write to
the key -1 survives). -/
theorem find_SpaRe_sentinel (text : List Char) (snippets : List (List Char))
    (h : ∃ s ∈ snippets.dropLast, strFind text s = -1) :
    ∃ s ∈ snippets.dropLast, strFind text s = -1 ∧
      ((s.length : Int)) ∈ find_SpaRe text snippets := by
  rcases h with ⟨a, ha, hfa⟩
  rcases lastMatch_of_mem (fun s => strFind text s == (-1 : Int))
      snippets.dropLast a ha (by simp [hfa]) with ⟨s, hs⟩
  rcases lastMatch_spec _ _ _ hs with ⟨hmem, hP⟩
  have hfs : strFind text s = -1 := by simpa [beq_iff_eq] using hP
  refine ⟨s, hmem, hfs, ?_⟩
  have hl : lookupD (location_and_length text snippets) (-1) = some s.length := by
    unfold location_and_length
    rw [lookupD_location_fold, hs]
  have hmem2 : ((-1 : Int), s.length) ∈ location_and_length text snippets :=
    lookupD_mem _ _ _ hl
  have hout : ((-1 : Int) + (s.length : Int) + 1) ∈ find_SpaRe text snippets :=
    List.mem_map_of_mem _ hmem2
  have he : (-1 : Int) + (s.length : Int) + 1 = (s.length : Int) := by ring
  rwa [he] at hout

theorem find_SpaRe_sentinel_witness :
    (∃ s ∈ [String.toList "zz", String.toList "q"].dropLast,
      strFind (String.toList "ab") s = -1) ∧
    ∃ s ∈ [String.toList "zz", String.toList "q"].dropLast,
      strFind (String.toList "ab") s = -1 ∧
        ((s.length : Int)) ∈ find_SpaRe (String.toList "ab")
          [String.toList "zz", String.toList "q"] :=
  ⟨by decide, find_SpaRe_sentinel (String.toList "ab")
    [String.toList "zz", String.toList "q"] (by decide)⟩

/-- C8: when at least two processed snippets share the same first-occurrence
offset k, the dict location_and_length keeps exactly one entry for k, whose
value is the length of the last such snippet (last-write-wins), and the
output holds the single location k + that length + 1 derived from k. -/
theorem find_SpaRe_last_write_wins (text : List Char)
    (snippets : List (List Char)) (k : Int)
    (h : 2 ≤ ((snippets.dropLast).filter
      (fun s => strFind text s == k)).length) :
    ∃ s, lastMatch (fun s => strFind text s == k) snippets.dropLast = some s ∧
      (location_and_length text snippets).filter (fun p => p.1 == k)
        = [(k, s.length)] ∧
      (k + (s.length : Int) + 1) ∈ find_SpaRe text snippets := by
  have hne : ((snippets.dropLast).filter (fun s => strFind text s == k)) ≠ [] := by
    intro hc
    rw [hc] at h
    simp at h
  rcases List.exists_mem_of_ne_nil _ hne with ⟨a, ha⟩
  have ha1 : a ∈ snippets.dropLast := (List.mem_filter.mp ha).1
  have ha2 : (strFind text a == k) = true := (List.mem_filter.mp ha).2
  rcases lastMatch_of_mem (fun s => strFind text s == k) snippets.dropLast a
      ha1 ha2 with ⟨s, hs⟩
  rcases lastMatch_spec _ _ _ hs with ⟨hmem, hP⟩
  have hfs : strFind text s = k := by simpa [beq_iff_eq] using hP
  have hl : lookupD (location_and_length text snippets) k = some s.length := by
    unfold location_and_length
    rw [lookupD_location_fold, hs]
  have hnd : ((location_and_length text snippets).map Prod.fst).Nodup :=
    nodup_keys_location_fold text _ [] (by simp)
  refine ⟨s, hs, filter_key_of_lookupD _ _ _ hnd hl, ?_⟩
  exact List.mem_map_of_mem _ (lookupD_mem _ _ _ hl)

theorem find_SpaRe_last_write_wins_witness :
    2 ≤ (([String.toList "ab", String.toList "a", String.toList "z"].dropLast).filter
      (fun s => strFind (String.toList "ab") s == (0 : Int))).length ∧
    ∃ s, lastMatch (fun s => strFind (String.toList "ab") s == (0 : Int))
        [String.toList "ab", String.toList "a", String.toList "z"].dropLast = some s ∧
      (location_and_length (String.toList "ab")
          [String.toList "ab", String.toList "a", String.toList "z"]).filter
          (fun p => p.1 == (0 : Int)) = [(0, s.length)] ∧
      ((0 : Int) + (s.length : Int) + 1) ∈ find_SpaRe (String.toList "ab")
        [String.toList "ab", String.toList "a", String.toList "z"] :=
  ⟨by decide, find_SpaRe_last_write_wins (String.toList "ab")
    [String.toList "ab", String.toList "a", String.toList "z"] 0 (by decide)⟩

/-! ## freq_SpIn lemmas -/

theorem freq_fold_eq (locs : List Int) (L : Nat) :
    ∀ (n s : Nat) (d : List (Nat × Nat)), 1 ≤ s → (∀ p ∈ d, p.1 < s) →
      (List.range' s n).foldl
        (fun d chunk => dictUpdate (dictUpdate d chunk 0) chunk
          (countInChunk locs (chunkStart L chunk) (chunkEnd L chunk))) d
      = d ++ (List.range' s n).map
          (fun c => (c, countInChunk locs (chunkStart L c) (chunkEnd L c))) := by
  intro n
  induction n with
  | zero => intro s d _ _; simp
  | succ n ih =>
    intro s d hs hd
    have hfresh : ∀ p ∈ d, p.1 ≠ s := fun p hp => Nat.ne_of_lt (hd p hp)
    have h1 : dictUpdate d s 0 = d ++ [(s, 0)] := dictUpdate_eq_append d s 0 hfresh
    have h2 : dictUpdate (d ++ [(s, 0)]) s
        (countInChunk locs (chunkStart L s) (chunkEnd L s))
        = d ++ [(s, countInChunk locs (chunkStart L s) (chunkEnd L s))] :=
      dictUpdate_append_key d s _ 0 hfresh
    have hd' : ∀ p ∈ d ++ [(s, countInChunk locs (chunkStart L s) (chunkEnd L s))],
        p.1 < s + 1 := by
      intro p hp
      rcases List.mem_append.mp hp with h | h
      · exact Nat.lt_succ_of_lt (hd p h)
      · have hps : p = (s, countInChunk locs (chunkStart L s) (chunkEnd L s)) := by
          simpa using h
        subst hps
        show s < s + 1
        omega
    have hrs : List.range' s (n + 1) = s :: List.range' (s + 1) n := by
      simpa using List.range'_succ s n 1
    rw [hrs]
    simp only [List.foldl_cons, List.map_cons]
    rw [h1, h2, ih (s + 1) _ (by omega) hd']
    simp

/-- freq_SpIn returns one pair per chunk 1..N in order, mapping each chunk to
the count of locations lying inclusively between that chunk's start and end. -/
theorem freq_SpIn_eq_map (locs : List Int) (text : List Char) (N : Nat) :
    freq_SpIn locs text N =
      (List.range' 1 N).map (fun c =>
        (c, countInChunk locs (chunkStart (chunk_length text.length N) c)
              (chunkEnd (chunk_length text.length N) c))) := by
  unfold freq_SpIn
  have := freq_fold_eq locs (chunk_length text.length N) N 1 []
    (le_refl 1) (by simp)
  simpa using this

theorem chunkEnd_one (L : Nat) : chunkEnd L 1 = L := by
  simp [chunkEnd]

theorem chunkStart_one (L : Nat) : chunkStart L 1 = 0 := by
  simp [chunkStart, chunkEnd]

theorem chunkEnd_succ (L N : Nat) (h : 1 ≤ N) :
    chunkEnd L (N + 1) = chunkEnd L N + L + 1 := by
  by_cases h1 : N = 1
  · subst h1
    simp [chunkEnd]
    omega
  · have hN2 : ¬ N + 1 = 1 := by omega
    have hN3 : ¬ N = 1 := h1
    simp only [chunkEnd, if_neg hN2, if_neg hN3]
    rw [Nat.mul_succ]
    omega

theorem chunkStart_succ (L N : Nat) (h : 1 ≤ N) :
    chunkStart L (N + 1) = chunkEnd L N + 1 := by
  rw [chunkStart, chunkEnd_succ L N h]
  omega

theorem chunkEnd_le_chunkEnd (L : Nat) :
    ∀ (d k : Nat), 1 ≤ k → chunkEnd L k ≤ chunkEnd L (k + d) := by
  intro d
  induction d with
  | zero => intro k _; exact le_refl _
  | succ d ih =>
    intro k hk
    have h1 : chunkEnd L (k + d) ≤ chunkEnd L (k + d + 1) := by
      rw [chunkEnd_succ L (k + d) (by omega)]
      omega
    calc chunkEnd L k ≤ chunkEnd L (k + d) := ih k hk
      _ ≤ chunkEnd L (k + (d + 1)) := by rw [show k + (d + 1) = k + d + 1 by omega]; exact h1

theorem countP_interval_split (locs : List Int) (a b c : Int)
    (hab : a ≤ b) (hbc : b ≤ c) :
    locs.countP (fun l => a ≤ l && l ≤ b)
      + locs.countP (fun l => b + 1 ≤ l && l ≤ c)
      = locs.countP (fun l => a ≤ l && l ≤ c) := by
  induction locs with
  | nil => simp
  | cons x locs ih =>
    have htrue : (if true = true then (1 : Nat) else 0) = 1 := rfl
    have hfalse : (if false = true then (1 : Nat) else 0) = 0 := rfl
    simp only [List.countP_cons]
    by_cases h1 : a ≤ x ∧ x ≤ b
    · have e1 : (decide (a ≤ x) && decide (x ≤ b)) = true := by
        simp [h1.1, h1.2]
      have e2 : (decide (b + 1 ≤ x) && decide (x ≤ c)) = false := by
        simp only [Bool.and_eq_false_iff, decide_eq_false_iff_not, not_le]
        left; omega
      have e3 : (decide (a ≤ x) && decide (x ≤ c)) = true := by
        have : x ≤ c := le_trans h1.2 hbc
        simp [h1.1, this]
      rw [e1, e2, e3]
      simp only [htrue, hfalse]
      omega
    · by_cases h2 : b + 1 ≤ x ∧ x ≤ c
      · have e1 : (decide (a ≤ x) && decide (x ≤ b)) = false := by
          simp only [Bool.and_eq_false_iff, decide_eq_false_iff_not, not_le]
          rcases not_and_or.mp h1 with h | h
          · left; omega
          · right; omega
        have e3 : (decide (a ≤ x) && decide (x ≤ c)) = true := by
          have ha : a ≤ x := by omega
          simp [ha, h2.2]
        rw [e1, e3]
        have e2 : (decide (b + 1 ≤ x) && decide (x ≤ c)) = true := by
          simp [h2.1, h2.2]
        rw [e2]
        simp only [htrue, hfalse]
        omega
      · have e1 : (decide (a ≤ x) && decide (x ≤ b)) = false := by
          simp only [Bool.and_eq_false_iff, decide_eq_false_iff_not, not_le]
          rcases not_and_or.mp h1 with h | h
          · left; omega
          · right; omega
        have e2 : (decide (b + 1 ≤ x) && decide (x ≤ c)) = false := by
          simp only [Bool.and_eq_false_iff, decide_eq_false_iff_not, not_le]
          rcases not_and_or.mp h2 with h | h
          · left; omega
          · right; omega
        have e3 : (decide (a ≤ x) && decide (x ≤ c)) = false := by
          simp only [Bool.and_eq_false_iff, decide_eq_false_iff_not, not_le]
          rcases not_and_or.mp h1 with h | h
          · left; omega
          · rcases not_and_or.mp h2 with h' | h'
            · right; omega
            · right; omega
        rw [e1, e2, e3]
        simp only [htrue, hfalse]
        omega

theorem sum_counts_range (locs : List Int) (L : Nat) :
    ∀ N : Nat, 1 ≤ N →
      ((List.range' 1 N).map (fun c =>
        countInChunk locs (chunkStart L c) (chunkEnd L c))).sum
        = locs.countP (fun l => 0 ≤ l && l ≤ (chunkEnd L N : Int)) := by
  intro N
  induction N with
  | zero => intro h; exact absurd h (by omega)
  | succ N ih =>
    intro _
    by_cases hN : N = 0
    · subst hN
      have h1 : List.range' 1 1 = [1] := rfl
      rw [h1]
      simp only [List.map_cons, List.map_nil, List.sum_cons, List.sum_nil,
        Nat.add_zero]
      rw [chunkStart_one, chunkEnd_one]
      simp only [countInChunk, chunkEnd_one]
      norm_num
    · have hN1 : 1 ≤ N := by omega
      have hconcat : List.range' 1 (N + 1) = List.range' 1 N ++ [1 + N] := by
        simpa using @List.range'_concat 1 1 N
      rw [hconcat, List.map_append, List.sum_append, ih hN1]
      simp only [List.map_cons, List.map_nil, List.sum_cons, List.sum_nil,
        Nat.add_zero]
      have e1 : 1 + N = N + 1 := by omega
      rw [e1, chunkStart_succ L N hN1, chunkEnd_succ L N hN1]
      simp only [countInChunk]
      have hsplit := countP_interval_split locs 0 (chunkEnd L N : Int)
        ((chunkEnd L N : Int) + (L : Int) + 1) (Int.ofNat_nonneg _) (by omega)
      push_cast
      push_cast at hsplit
      convert hsplit using 3

/-! ## Claim theorems about freq_SpIn -/

/-- C2 counterexample: for the concrete text of length 4 with N = 2
(chunk_length 2), segment 1 ends at 2 while segment 2 starts at 3 -- the end
of a segment does not equal the start of the next -- and the location 2,
lying exactly at segment 1's end, is counted once in total, not twice. -/
theorem segment_overlap_cex :
    chunkEnd (chunk_length 4 2) 1 ≠ chunkStart (chunk_length 4 2) 2 ∧
    freq_SpIn [2] (String.toList "abcd") 2 = [(1, 1), (2, 0)] := by
  constructor
  · decide
  · decide

/-- C2 amended: adjacent segments are disjoint, not overlapping: for every
k from 1 on, segment k+1 starts one character after segment k ends
(start of k+1 = end of k + 1), and consequently no indicator location lies
inclusively inside two distinct segments. -/
theorem segments_disjoint (L k m : Nat) (l : Int) (hk : 1 ≤ k) (hkm : k < m) :
    chunkStart L (k + 1) = chunkEnd L k + 1 ∧
    ¬(((chunkStart L k : Int) ≤ l ∧ l ≤ (chunkEnd L k : Int)) ∧
      ((chunkStart L m : Int) ≤ l ∧ l ≤ (chunkEnd L m : Int))) := by
  refine ⟨chunkStart_succ L k hk, ?_⟩
  rintro ⟨⟨_, h2⟩, ⟨h3, _⟩⟩
  have hm1 : 1 ≤ m - 1 := by omega
  have hms : m = (m - 1) + 1 := by omega
  have hsm : chunkStart L m = chunkEnd L (m - 1) + 1 := by
    rw [hms]
    exact chunkStart_succ L (m - 1) hm1
  have hmono : chunkEnd L k ≤ chunkEnd L (m - 1) := by
    have h := chunkEnd_le_chunkEnd L (m - 1 - k) k hk
    rw [show k + (m - 1 - k) = m - 1 by omega] at h
    exact h
  rw [hsm] at h3
  push_cast at h3
  omega

theorem segments_disjoint_witness :
    1 ≤ 1 ∧ 1 < 2 ∧
    (chunkStart 2 (1 + 1) = chunkEnd 2 1 + 1 ∧
    ¬(((chunkStart 2 1 : Int) ≤ (2 : Int) ∧ (2 : Int) ≤ (chunkEnd 2 1 : Int)) ∧
      ((chunkStart 2 2 : Int) ≤ (2 : Int) ∧ (2 : Int) ≤ (chunkEnd 2 2 : Int)))) :=
  ⟨by decide, by decide, segments_disjoint 2 1 2 2 (by decide) (by decide)⟩

/-- C3: for every location list, text and positive N, freq_SpIn returns
exactly the keys 1..N in numeric order (each count a Nat, hence
non-negative), and every key is mapped to the count of locations lying in
its segment -- in particular to zero when the segment holds no indicator. -/
theorem freq_SpIn_complete_keys (locs : List Int) (text : List Char) (N : Nat)
    (h : 0 < N) :
    (freq_SpIn locs text N).map Prod.fst = List.range' 1 N ∧
    ∀ p ∈ freq_SpIn locs text N,
      p.2 = countInChunk locs (chunkStart (chunk_length text.length N) p.1)
              (chunkEnd (chunk_length text.length N) p.1) := by
  constructor
  · rw [freq_SpIn_eq_map, List.map_map]
    have hcomp : (Prod.fst ∘ fun c =>
        (c, countInChunk locs (chunkStart (chunk_length text.length N) c)
          (chunkEnd (chunk_length text.length N) c))) = id := rfl
    rw [hcomp, List.map_id]
  · intro p hp
    rw [freq_SpIn_eq_map] at hp
    rcases List.mem_map.mp hp with ⟨c, _, rfl⟩
    rfl

theorem freq_SpIn_complete_keys_witness :
    0 < 2 ∧
    ((freq_SpIn [2, -1] (String.toList "abcd") 2).map Prod.fst
        = List.range' 1 2 ∧
    ∀ p ∈ freq_SpIn [2, -1] (String.toList "abcd") 2,
      p.2 = countInChunk [2, -1]
        (chunkStart (chunk_length (String.toList "abcd").length 2) p.1)
        (chunkEnd (chunk_length (String.toList "abcd").length 2) p.1)) :=
  ⟨by decide, freq_SpIn_complete_keys [2, -1] (String.toList "abcd") 2
    (by decide)⟩

/-- C4 counterexample: on the text ab with snippets [ab, x], find_SpaRe
returns the single location 3 (snippet at offset 0, length 2, plus one),
but with N = 1 the sole segment spans 0..2, so the histogram sums to 0,
not to the number of located indicators (1). -/
theorem freq_SpIn_sum_cex :
    (find_SpaRe (String.toList "ab") [String.toList "ab", String.toList "x"])
        = [3] ∧
    ((freq_SpIn
        (find_SpaRe (String.toList "ab") [String.toList "ab", String.toList "x"])
        (String.toList "ab") 1).map Prod.snd).sum = 0 := by
  constructor
  · decide
  · decide

/-- C4 amended: the counts sum to the number of indicator locations that do
not exceed the last segment's end (every find_SpaRe location is
non-negative, and each location within the segmented range 0..end(N) is
counted in exactly one segment; locations beyond end(N) are dropped). -/
theorem freq_SpIn_sum_eq (text : List Char) (snippets : List (List Char))
    (N : Nat) (h : 0 < N) :
    ((freq_SpIn (find_SpaRe text snippets) text N).map Prod.snd).sum
      = (find_SpaRe text snippets).countP
          (fun l => l ≤ (chunkEnd (chunk_length text.length N) N : Int)) := by
  rw [freq_SpIn_eq_map, List.map_map]
  have hcomp : (Prod.snd ∘ fun c =>
      (c, countInChunk (find_SpaRe text snippets)
        (chunkStart (chunk_length text.length N) c)
        (chunkEnd (chunk_length text.length N) c)))
      = fun c => countInChunk (find_SpaRe text snippets)
        (chunkStart (chunk_length text.length N) c)
        (chunkEnd (chunk_length text.length N) c) := rfl
  rw [hcomp, sum_counts_range (find_SpaRe text snippets)
    (chunk_length text.length N) N h]
  apply List.countP_congr
  intro l hl
  have hpos := find_SpaRe_nonneg text snippets l hl
  simp [hpos]

theorem freq_SpIn_sum_eq_witness :
    0 < 2 ∧
    ((freq_SpIn (find_SpaRe (String.toList "ab") [String.toList "a", String.toList "z"])
        (String.toList "ab") 2).map Prod.snd).sum
      = (find_SpaRe (String.toList "ab") [String.toList "a", String.toList "z"]).countP
          (fun l => l ≤ (chunkEnd (chunk_length (String.toList "ab").length 2) 2 : Int)) :=
  ⟨by decide, freq_SpIn_sum_eq (String.toList "ab")
    [String.toList "a", String.toList "z"] 2 (by decide)⟩

/-- C1 counterexample: on the scenario inputs exactly as stated -- the
single snippet list -- find_SpaRe returns no location at all (the sole
snippet is the last one and the locator skips the last snippet), so the
pipeline's histogram is 1 maps to 0 and 2 maps to 0: no indicator offset 12
is produced and neither stated histogram alternative holds. -/
theorem scenario_as_stated_cex :
    find_SpaRe catText [catSnippet] = [] ∧
    freq_SpIn (find_SpaRe catText [catSnippet]) catText 2 = [(1, 0), (2, 0)] := by
  constructor
  · rfl
  · decide

/-- C1 amended: because find_SpaRe skips the last snippet, the scenario
needs a dummy last element; with snippets = [the cat sat (trailing space),
dummy] the pipeline produces the single indicator offset 13 (snippet offset
0 + length 12 + 1, the n of on -- one past the offset 12 stated in the
scenario), and with N = 2 the histogram maps 1 to 0 and 2 to 1. -/
theorem scenario_with_dummy_last :
    find_SpaRe catText [catSnippet, String.toList "x"] = [13] ∧
    freq_SpIn [13] catText 2 = [(1, 0), (2, 1)] := by
  constructor
  · decide
  · decide

/-! ## clean_text lemmas -/

theorem mem_collapseSpaces (c : Char) :
    ∀ s : List Char, c ∈ collapseSpaces s → c ∈ s := by
  intro s
  induction s with
  | nil => intro h; simpa [collapseSpaces] using h
  | cons a tl ih =>
    cases tl with
    | nil => intro h; simp [collapseSpaces] at h
    | cons b rest =>
      intro h
      simp only [collapseSpaces] at h
      rcases List.mem_append.mp h with h1 | h1
      · by_cases hc : (a == ' ' && b == ' ') = true
        · rw [if_pos hc] at h1; cases h1
        · rw [if_neg hc] at h1
          simp only [List.mem_singleton] at h1
          simp [h1]
      · exact List.mem_cons_of_mem _ (ih h1)

theorem collapseSpaces_length :
    ∀ s : List Char, s ≠ [] → (collapseSpaces s).length < s.length := by
  intro s
  induction s with
  | nil => intro h; exact absurd rfl h
  | cons a tl ih =>
    intro _
    cases tl with
    | nil => simp [collapseSpaces]
    | cons b rest =>
      have ihb := ih (by simp)
      simp only [collapseSpaces]
      by_cases hc : (a == ' ' && b == ' ') = true
      · rw [if_pos hc]
        simp only [List.nil_append, List.length_cons]
        simp only [List.length_cons] at ihb
        omega
      · rw [if_neg hc]
        simp only [List.cons_append, List.nil_append, List.length_cons]
        simp only [List.length_cons] at ihb
        omega

theorem collapseSpaces_head_of_ne_space (b : Char) (rest : List Char)
    (hb : ¬ b = ' ') (c : Char)
    (hc : (collapseSpaces (b :: rest)).head? = some c) : c = b := by
  cases rest with
  | nil => simp [collapseSpaces] at hc
  | cons d r =>
    have hcond : (b == ' ' && d == ' ') = false := by
      simp [hb]
    simp only [collapseSpaces, hcond] at hc
    simp only [Bool.false_eq_true, if_false, List.cons_append,
      List.head?_cons, Option.some.injEq] at hc
    exact hc.symm

theorem noDoubleSpace_collapse :
    ∀ s : List Char, noDoubleSpace (collapseSpaces s) = true := by
  intro s
  induction s with
  | nil => rfl
  | cons a tl ih =>
    cases tl with
    | nil => rfl
    | cons b rest =>
      simp only [collapseSpaces]
      by_cases hc : (a == ' ' && b == ' ') = true
      · rw [if_pos hc]
        simpa using ih
      · rw [if_neg hc]
        simp only [List.cons_append, List.nil_append]
        cases hout : collapseSpaces (b :: rest) with
        | nil => rfl
        | cons c r =>
          have h2 : noDoubleSpace (c :: r) = true := hout ▸ ih
          simp only [noDoubleSpace, Bool.and_eq_true, Bool.not_eq_eq_eq_not,
            Bool.not_true]
          refine ⟨?_, h2⟩
          by_cases ha : a = ' '
          · have hb : ¬ b = ' ' := by
              intro hbe
              apply hc
              simp [ha, hbe]
            have hcb : c = b :=
              collapseSpaces_head_of_ne_space b rest hb c (by rw [hout]; rfl)
            simp [hcb, hb]
          · simp [ha]

theorem collapseSpaces_no_space :
    ∀ s : List Char, (∀ c ∈ s, ¬ c = ' ') → collapseSpaces s = s.dropLast := by
  intro s
  induction s with
  | nil => intro _; rfl
  | cons a tl ih =>
    intro h
    cases tl with
    | nil => rfl
    | cons b rest =>
      have ha : ¬ a = ' ' := h a (by simp)
      have hcond : (a == ' ' && b == ' ') = false := by simp [ha]
      simp only [collapseSpaces, hcond, Bool.false_eq_true, if_false,
        List.cons_append, List.nil_append]
      rw [ih (fun c hc => h c (List.mem_cons_of_mem _ hc))]
      rfl

/-! ## Claim theorems about clean_text -/

/-- C9: the output of clean_text holds only letters, spaces and hyphens;
it never holds two consecutive spaces; and a newline in the input is
treated exactly as a space (so runs of spaces and newlines collapse). -/
theorem clean_text_normalform (raw : List Char) :
    (∀ c ∈ clean_text raw, c.isAlpha ∨ c = ' ' ∨ c = '-') ∧
    noDoubleSpace (clean_text raw) = true ∧
    ∀ xs ys : List Char, clean_text (xs ++ '\n' :: ys) = clean_text (xs ++ ' ' :: ys) := by
  refine ⟨?_, noDoubleSpace_collapse _, ?_⟩
  · intro c hc
    have h1 : c ∈ filterKept (replaceNewlines raw) := mem_collapseSpaces c _ hc
    have h2 := (List.mem_filter.mp h1).2
    have h3 : (c.isAlpha = true ∨ c = ' ') ∨ c = '-' := by
      simpa [keepChar] using h2
    tauto
  · intro xs ys
    unfold clean_text filterKept replaceNewlines
    rw [List.map_append, List.map_append, List.map_cons, List.map_cons]
    norm_num

theorem clean_text_normalform_witness :
    'a' ∈ clean_text (String.toList "a-b c") ∧
    ('a'.isAlpha ∨ 'a' = ' ' ∨ 'a' = '-') :=
  ⟨by decide, (clean_text_normalform (String.toList "a-b c")).1 'a' (by decide)⟩

/-- C10: whenever the filtered content is non-empty, the collapse loop,
which ranges only over indices 0 to len-2, returns a string strictly
shorter than the filtered one; for an input of letters only the result is
exactly the input minus its final character. -/
theorem clean_text_truncates (raw : List Char) :
    (filterKept (replaceNewlines raw) ≠ [] →
      (clean_text raw).length < (filterKept (replaceNewlines raw)).length) ∧
    ((∀ c ∈ raw, c.isAlpha) → clean_text raw = raw.dropLast) := by
  constructor
  · intro h
    exact collapseSpaces_length _ h
  · intro h
    unfold clean_text
    have h1 : replaceNewlines raw = raw := by
      unfold replaceNewlines
      have hid : ∀ c ∈ raw, (if c = '\n' then ' ' else c) = id c := by
        intro c hc
        have hca := h c hc
        have hne : ¬ c = '\n' := by
          intro he
          rw [he] at hca
          exact absurd hca (by decide)
        simp [hne]
      rw [List.map_congr_left hid, List.map_id]
    rw [h1]
    have h2 : filterKept raw = raw := by
      unfold filterKept
      rw [List.filter_eq_self]
      intro c hc
      simp [keepChar, h c hc]
    rw [h2]
    apply collapseSpaces_no_space
    intro c hc hce
    have hca := h c hc
    rw [hce] at hca
    exact absurd hca (by decide)

theorem clean_text_truncates_witness :
    (filterKept (replaceNewlines (String.toList "abc")) ≠ [] ∧
      (clean_text (String.toList "abc")).length
        < (filterKept (replaceNewlines (String.toList "abc"))).length) ∧
    ((∀ c ∈ String.toList "abc", c.isAlpha) ∧
      clean_text (String.toList "abc") = (String.toList "abc").dropLast) :=
  ⟨⟨by decide, (clean_text_truncates (String.toList "abc")).1 (by decide)⟩,
   ⟨by decide, (clean_text_truncates (String.toList "abc")).2 (by decide)⟩⟩

end SpaRe
